import Mathlib

/-!
Verification of the wsl-host-start core: a shallow embedding in Lean 4 of the
allowlist policy engine, path/alias translation, drive cache, converter
construction, environment forwarding and the host-side launch entry points,
with theorems settling the specification's claims about them.

Strings are modelled as lists of characters (`Str`), so that the Go byte-level
operations (prefix tests, slicing by length, per-character case mapping)
become structural list operations.
-/

/-- Strings are modelled as lists of characters. -/
abbrev Str := List Char

/-- Literal conversion helper. -/
def str (s : String) : Str := s.toList

/-- Go `strings.ToLower` (per-character case mapping). -/
def lowerStr (s : Str) : Str := s.map Char.toLower

/-- Go `strings.ToUpper` (per-character case mapping). -/
def upperStr (s : Str) : Str := s.map Char.toUpper

/-- Go `strings.EqualFold`: case-insensitive equality. -/
def eqFoldB (a b : Str) : Bool := lowerStr a == lowerStr b

/-- Go `strings.TrimSuffix(s, suf)`: drop `suf` from the end when present. -/
def trimSuffixStr (s suf : Str) : Str :=
  if suf.isSuffixOf s then s.take (s.length - suf.length) else s

/-- Go `strings.Join(parts, ", ")`. -/
def joinComma : List Str → Str
  | [] => []
  | [c] => c
  | c :: rest => c ++ str ", " ++ joinComma rest

/-- Go `%q` formatting of a plain string (no escape-needing characters). -/
def quoteStr (s : Str) : Str := '"' :: s ++ ['"']

namespace Protocol

/-- Modelled from the spec: drive `type` of the missing `internal/protocol`
package, `∈ {fixed, network, subst, removable, cdrom, ramdisk, unknown}`. -/
inductive DriveType where
  | fixed | network | subst | removable | cdrom | ramdisk | unknown
deriving DecidableEq

/-- Modelled from the spec: `DriveInfo` of the missing `internal/protocol`
package — one enumerated or configured drive: letter, type, target, label. -/
structure DriveInfo where
  letter : Str
  dtype : DriveType
  target : Str
  label : Str
deriving DecidableEq

/-- Modelled from the spec: `DrivesResponse` of the missing `internal/protocol`
package — `{drives, username, localAppData}`. -/
structure DrivesResponse where
  drives : List DriveInfo
  username : Str
  localAppData : Str
deriving DecidableEq

/-- Modelled from the spec: `LaunchRequest` of the missing `internal/protocol`
package — `{file, verb, args[], workDir, show, wait, envVars{}}`. -/
structure LaunchRequest where
  file : Str
  verb : Str
  args : List Str
  workDir : Str
  showState : Str
  wait : Bool
  envVars : List (Str × Str)
deriving DecidableEq

/-- Modelled from the spec: `LaunchResponse` of the missing `internal/protocol`
package — `{exitCode, pid, error, errCode}`. -/
structure LaunchResponse where
  exitCode : Int
  pid : Int
  error : Str
  errCode : Int
deriving DecidableEq

end Protocol

namespace Allowlist

/-- `Rule` from `allowlist.go`: one allowed program and optionally its
permitted subcommands (empty `commands` ⇒ any arguments allowed). -/
structure Rule where
  program : Str
  commands : List Str
deriving DecidableEq

/-- `LoadResult` from `allowlist.go` with the rules of its `List` inlined:
`loaded` is true iff an allowlist file was found and parsed. -/
structure LoadResult where
  loaded : Bool
  path : Str
  allow : List Rule
deriving DecidableEq

/-- `Load` from `allowlist.go`. The on-disk state of the allowlist file is
`file`: `none` = absent, `some none` = present but unreadable or undecodable,
`some (some rules)` = present and decoded. The code has a single branch on
the `toml.DecodeFile` error, so the first two states land in the same
`Loaded = false` result (the comment there reads "File doesn't exist → no
allowlist → everything allowed", but `DecodeFile` also fails on a present
malformed file). -/
def load (file : Option (Option (List Rule))) (path : Str) : LoadResult :=
  match file with
  | some (some rules) => { loaded := true, path := path, allow := rules }
  | _ => { loaded := false, path := path, allow := [] }

/-- The slice `file[i+1:]` for `i := strings.LastIndexAny(file, "/\\")`
(the whole string when no separator occurs), from `normalizeProgram`. -/
def afterLastSep (file : Str) : Str :=
  file.foldl (fun acc c => if c = '/' ∨ c = '\\' then [] else acc ++ [c]) []

/-- `normalizeProgram` from `allowlist.go`: base filename, lowercased,
without `.exe` extension. -/
def normalizeProgram (file : Str) : Str :=
  trimSuffixStr (lowerStr (afterLastSep file)) (str ".exe")

/-- `matchProgram` from `allowlist.go`: the rule's program field is lowercased
and stripped of a `.exe` suffix (but not of a directory prefix), then compared
to the normalized base name. -/
def matchProgram (baseName ruleProgram : Str) : Bool :=
  baseName == trimSuffixStr (lowerStr ruleProgram) (str ".exe")

/-- `firstPositionalArg` from `allowlist.go`: first argument not starting with
`-`; a flag token without `=` also consumes the following token as its value.
Returns `""` when no positional argument is found. -/
def firstPositionalArg : List Str → Str
  | [] => []
  | arg :: rest =>
    if arg.head? = some '-' then
      if arg.contains '=' then firstPositionalArg rest
      else
        match rest with
        | [] => []
        | _ :: rest2 => firstPositionalArg rest2
    else arg

/-- The `denied: program %q is not in the allowlist (%s)` message. -/
def deniedProgramMsg (baseName path : Str) : Str :=
  str "denied: program " ++ quoteStr baseName ++ str " is not in the allowlist (" ++ path ++ str ")"

/-- The `denied: %q requires a subcommand (allowed: %s)` message. -/
def needsSubcommandMsg (program : Str) (commands : List Str) : Str :=
  str "denied: " ++ quoteStr program ++ str " requires a subcommand (allowed: " ++
    joinComma commands ++ str ")"

/-- The `denied: %q subcommand %q is not allowed (allowed: %s)` message. -/
def subcmdDeniedMsg (program subcmd : Str) (commands : List Str) : Str :=
  str "denied: " ++ quoteStr program ++ str " subcommand " ++ quoteStr subcmd ++
    str " is not allowed (allowed: " ++ joinComma commands ++ str ")"

/-- The rule loop of `Check` from `allowlist.go`: first rule whose program
matches decides; fallthrough is the not-in-allowlist denial. `none` = allowed,
`some msg` = denied with that message. -/
def checkRules (path : Str) (baseName : Str) (args : List Str) : List Rule → Option Str
  | [] => some (deniedProgramMsg baseName path)
  | rule :: rest =>
    if matchProgram baseName rule.program then
      if rule.commands.isEmpty then none
      else
        let subcmd := firstPositionalArg args
        if subcmd = [] then some (needsSubcommandMsg rule.program rule.commands)
        else if rule.commands.any (fun allowed => eqFoldB subcmd allowed) then none
        else some (subcmdDeniedMsg rule.program subcmd rule.commands)
    else checkRules path baseName args rest

/-- `Check` from `allowlist.go`: `none` iff the request is permitted.
When no allowlist was loaded, everything is allowed. -/
def check (lr : LoadResult) (file : Str) (args : List Str) : Option Str :=
  if lr.loaded = false then none
  else checkRules lr.path (normalizeProgram file) args lr.allow

end Allowlist

namespace PathConv

/-- `Alias` from `pathconv.go`: a Windows drive letter and its target path. -/
structure Alias where
  letter : Str
  target : Str
deriving DecidableEq

/-- `Converter` from `pathconv.go`. -/
structure Converter where
  aliases : List Alias
  preferAliases : Bool
deriving DecidableEq

/-- Go `strings.ReplaceAll(s, "/", "\\")`. -/
def replaceSlash (s : Str) : Str := s.map (fun c => if c = '/' then '\\' else c)

/-- Go `strings.TrimRight(s, "\\")`: drop all trailing backslashes. -/
def trimEndBS (s : Str) : Str := (s.reverse.dropWhile (fun c => c = '\\')).reverse

/-- The auto-detected part of `NewConverter` from `pathconv.go`: one alias per
subst drive with a non-empty target, in drive order. -/
def autoAliases : List Protocol.DriveInfo → List Alias
  | [] => []
  | d :: ds =>
    if d.dtype = Protocol.DriveType.subst ∧ d.target ≠ [] then
      { letter := d.letter, target := d.target } :: autoAliases ds
    else autoAliases ds

/-- The config-override loop body of `NewConverter` from `pathconv.go`: replace
the target of the first alias whose letter matches case-insensitively (keeping
that alias's letter), else append a new alias with the (uppercased) letter. -/
def upsertAlias : List Alias → Str → Str → List Alias
  | [], letter, target => [{ letter := letter, target := target }]
  | a :: rest, letter, target =>
    if eqFoldB a.letter letter then { letter := a.letter, target := target } :: rest
    else a :: upsertAlias rest letter target

/-- `NewConverter` from `pathconv.go`: auto-detected subst aliases, then config
overrides (letter uppercased) added or replacing by case-insensitive letter.
The Go config map is represented as an association list. -/
def newConverter (drives : List Protocol.DriveInfo) (configAliases : List (Str × Str))
    (preferAliases : Bool) : Converter :=
  { aliases := configAliases.foldl (fun acc p => upsertAlias acc (upperStr p.1) p.2)
      (autoAliases drives),
    preferAliases := preferAliases }

/-- `IsBareCommand` from `pathconv.go`: no path separators, no leading `.`,
not an `http://`/`https://` URL. -/
def isBareCommand (s : Str) : Bool :=
  if s.any (fun c => c = '/' ∨ c = '\\') then false
  else if s.head? = some '.' then false
  else if (str "http://").isPrefixOf (lowerStr s) ∨ (str "https://").isPrefixOf (lowerStr s) then
    false
  else true

/-- The normalized, trailing-backslash-trimmed target the `applyAlias` loop
compares against (`strings.TrimRight(ToLower(ReplaceAll(target,"/","\\")),"\\")`). -/
def normTargetOf (a : Alias) : Str := trimEndBS (lowerStr (replaceSlash a.target))

/-- The normalized path the `applyAlias` loop matches on
(`strings.ToLower(ReplaceAll(winPath, "/", "\\"))`). -/
def normPath (p : Str) : Str := lowerStr (replaceSlash p)

/-- The match condition of the `applyAlias` loop over an already-normalized
path `N`: the normalized target is a prefix of `N`, at a path boundary
(exact match or followed by a backslash). -/
def matchesN (a : Alias) (N : Str) : Prop :=
  normTargetOf a <+: N ∧
    (N.drop (normTargetOf a).length = [] ∨
      (N.drop (normTargetOf a).length).head? = some '\\')

instance (a : Alias) (N : Str) : Decidable (matchesN a N) := by
  unfold matchesN; infer_instance

/-- The match condition of the `applyAlias` loop, as a proposition on the
original path: the normalized target is a path-boundary-aligned prefix of the
normalized path. -/
def aliasMatches (a : Alias) (p : Str) : Prop := matchesN a (normPath p)

instance (a : Alias) (p : Str) : Decidable (aliasMatches a p) := by
  unfold aliasMatches; infer_instance

/-- One iteration of the `applyAlias` loop from `pathconv.go`, folding the
`(bestLen, bestLetter, bestTarget)` accumulator over one alias. -/
def applyAliasStep (normalized : Str) (b : Nat × Str × Str) (a : Alias) : Nat × Str × Str :=
  let target := trimEndBS (lowerStr (replaceSlash a.target))
  if target.isPrefixOf normalized then
    let rest := normalized.drop target.length
    if rest ≠ [] ∧ rest.head? ≠ some '\\' then b
    else if b.1 < target.length then (target.length, a.letter, target)
    else b
  else b

/-- `applyAlias` from `pathconv.go`: longest-prefix matching of normalized
alias targets against the normalized path; on a match, the matched prefix is
replaced by `"<LETTER>:"` and forward slashes in the suffix are normalized. -/
def applyAlias (aliases : List Alias) (winPath : Str) : Str :=
  let normalized := lowerStr (replaceSlash winPath)
  let best := aliases.foldl (applyAliasStep normalized) (0, [], [])
  if best.1 = 0 then winPath
  else upperStr best.2.1 ++ ':' :: replaceSlash (winPath.drop best.2.2.length)

/-- `ToWindows` from `pathconv.go`. The effectful collaborators are passed as
oracles: `abs` for `filepath.Abs` and `wslpath` for `runWslpath`; `isAbs`
mirrors Linux `filepath.IsAbs` (a leading `/`). -/
def toWindows (c : Converter) (abs : Str → Except Str Str) (wslpath : Str → Except Str Str)
    (p : Str) : Except Str Str :=
  let lower := lowerStr p
  if (str "http://").isPrefixOf lower ∨ (str "https://").isPrefixOf lower then Except.ok p
  else if isBareCommand p then Except.ok p
  else
    (if p.head? = some '/' then Except.ok p else abs p).bind fun absPath =>
      (wslpath absPath).bind fun winPath =>
        Except.ok (if c.preferAliases then applyAlias c.aliases winPath else winPath)

end PathConv

namespace DriveCache

/-- One nanosecond-denominated hour, Go's `1 * time.Hour`. -/
def hourNs : Int := 3600000000000

/-- `defaultTTL` from `cache.go`: one hour. -/
def defaultTTL : Int := hourNs

/-- `Cache` from `cache.go`, reduced to the fields the claims are about
(`path` is fixed by `cachePath()` and is irrelevant to the cache logic). -/
structure Cache where
  ttl : Int
deriving DecidableEq

/-- `New` from `cache.go`: when `ttl` is 0, `defaultTTL` is used. -/
def new (ttl : Int) : Cache :=
  if ttl = 0 then { ttl := defaultTTL } else { ttl := ttl }

/-- `cacheFile` from `cache.go`: the persisted snapshot with its timestamp
(nanoseconds). -/
structure CacheFileData where
  timestamp : Int
  data : Protocol.DrivesResponse
deriving DecidableEq

/-- The on-disk state of the cache file: `none` = the file is missing or
unreadable (`os.ReadFile` fails), `some none` = present but unparsable
(`json.Unmarshal` fails), `some (some cf)` = present and parsed. -/
def CacheState := Option (Option CacheFileData)
deriving DecidableEq

/-- `load` from `cache.go`: read, parse, then fail with `cache expired` when
`time.Since(cf.Timestamp) > c.ttl`; `now` is the current time in nanoseconds. -/
def load (c : Cache) (st : CacheState) (now : Int) : Except Str Protocol.DrivesResponse :=
  match st with
  | none => Except.error (str "read error")
  | some none => Except.error (str "parse error")
  | some (some cf) =>
    if now - cf.timestamp > c.ttl then Except.error (str "cache expired")
    else Except.ok cf.data

/-- `Refresh` from `cache.go`. The helper round-trip (`exec` + `Unmarshal`) is
the `fetch` oracle; `saveOk` is whether `save` succeeds. A save failure is
only logged: the freshly fetched data is returned either way, and only a
successful save updates the file state. -/
def refresh (st : CacheState) (now : Int) (fetch : Except Str Protocol.DrivesResponse)
    (saveOk : Bool) : Except Str Protocol.DrivesResponse × CacheState :=
  match fetch with
  | Except.error e => (Except.error e, st)
  | Except.ok resp =>
    (Except.ok resp, if saveOk then some (some { timestamp := now, data := resp }) else st)

/-- `Get` from `cache.go`: the cached snapshot when `load` succeeds, otherwise
the result of `Refresh`. -/
def get (c : Cache) (st : CacheState) (now : Int) (fetch : Except Str Protocol.DrivesResponse)
    (saveOk : Bool) : Except Str Protocol.DrivesResponse × CacheState :=
  match load c st now with
  | Except.ok data => (Except.ok data, st)
  | Except.error _ => refresh st now fetch saveOk

end DriveCache

namespace Cfg

/-- `DrivesConfig` from `config.go`; the alias map is an association list. -/
structure DrivesConfig where
  aliases : List (Str × Str)
  preferAliases : Bool
  autoDetect : Bool
deriving DecidableEq

/-- `EnvConfig` from `config.go`. -/
structure EnvConfig where
  forward : List Str
  block : List Str
deriving DecidableEq

/-- `DefaultsConfig` from `config.go`. -/
structure DefaultsConfig where
  verb : Str
  showDefault : Str
deriving DecidableEq

/-- `Config` from `config.go`. -/
structure Config where
  drives : DrivesConfig
  env : EnvConfig
  defaults : DefaultsConfig
deriving DecidableEq

/-- `defaults` from `config.go`: prefer aliases, auto-detect, block the three
sensitive Perforce variables, verb `open`, show `normal`. -/
def defaults : Config :=
  { drives := { aliases := [], preferAliases := true, autoDetect := true },
    env := { forward := [],
             block := [str "P4PASSWD", str "P4TICKETS", str "P4TRUST"] },
    defaults := { verb := str "open", showDefault := str "normal" } }

end Cfg

namespace Launch

/-- The filtered-forwarding loop of `collectEnvVars` from `launch.go`, with
the blocked set inlined as a membership test on the uppercased block list. -/
def collectLoop (blocked : List Str) (env : Str → Option Str) :
    List (Str × Str) → List Str → List (Str × Str)
  | acc, [] => acc
  | acc, name :: rest =>
    if blocked.contains (upperStr name) then collectLoop blocked env acc rest
    else
      match env name with
      | some v => collectLoop blocked env (acc ++ [(name, v)]) rest
      | none => collectLoop blocked env acc rest

/-- `collectEnvVars` from `launch.go`: empty `env.forward` yields no
variables; otherwise forward each unblocked variable present in the process
environment (`env` is the `os.LookupEnv` oracle, the result map an
association list). Blocking compares uppercased names. -/
def collectEnvVars (cfg : Cfg.Config) (env : Str → Option Str) : List (Str × Str) :=
  if cfg.env.forward.isEmpty then []
  else collectLoop (cfg.env.block.map upperStr) env [] cfg.env.forward

end Launch

namespace Host

/-- The observable actions of the host helper, for stating that the policy
check precedes any execution primitive. -/
inductive Event where
  | policyCheck : Str → List Str → Event
  | execute : Protocol.LaunchRequest → Event
  | executeConsole : Protocol.LaunchRequest → Event
deriving DecidableEq

/-- `Event.isExec`: whether an event is an invocation of an execution
primitive (`shellexec.Execute` or `shellexec.ExecuteConsole`). -/
def Event.isExec : Event → Bool
  | Event.execute _ => true
  | Event.executeConsole _ => true
  | _ => false

/-- `runLaunch` from `cmd/wstart-host/main.go`, from the point where the
request is decoded and the allowlist loaded: check the allowlist; on denial
answer with the fixed `ErrCode` 5 (`SE_ERR_ACCESSDENIED`) without executing,
otherwise answer with `shellexec.Execute`'s response (the `shellExecute`
oracle). The event trace records the order of the observable actions. -/
def runLaunch (al : Allowlist.LoadResult) (req : Protocol.LaunchRequest)
    (shellExecute : Protocol.LaunchRequest → Protocol.LaunchResponse) :
    List Event × Protocol.LaunchResponse :=
  match Allowlist.check al req.file req.args with
  | some msg =>
    ([Event.policyCheck req.file req.args],
     { exitCode := 0, pid := 0, error := msg, errCode := 5 })
  | none =>
    ([Event.policyCheck req.file req.args, Event.execute req], shellExecute req)

/-- `runExec` from `cmd/wstart-host/main.go`, from the point where the request
is decoded and the allowlist loaded: check the allowlist; on denial exit with
status 5 (`SE_ERR_ACCESSDENIED`) without executing; otherwise run
`shellexec.ExecuteConsole` (the `executeConsole` oracle) and exit with the
child's exit code, or 1 when it fails. -/
def runExec (al : Allowlist.LoadResult) (req : Protocol.LaunchRequest)
    (executeConsole : Protocol.LaunchRequest → Except Str Int) : List Event × Int :=
  match Allowlist.check al req.file req.args with
  | some _ => ([Event.policyCheck req.file req.args], 5)
  | none =>
    match executeConsole req with
    | Except.error _ => ([Event.policyCheck req.file req.args, Event.executeConsole req], 1)
    | Except.ok code => ([Event.policyCheck req.file req.args, Event.executeConsole req], code)

end Host

namespace Allowlist

/-- Written from the claim's words (C2), for comparison with `check`: permit
iff the first rule whose fully normalized program (base name, lowercased,
`.exe` stripped) equals the normalized file base name exists and either has no
command restriction or the first positional argument case-insensitively
equals one of its commands. -/
def specPermit (lr : LoadResult) (file : Str) (args : List Str) : Bool :=
  match lr.allow.find? (fun r => normalizeProgram r.program == normalizeProgram file) with
  | none => false
  | some r =>
    r.commands.isEmpty || r.commands.any (fun c => eqFoldB (firstPositionalArg args) c)

/-- Whether a matched rule allows the given arguments: no command restriction,
or a non-empty first positional argument case-insensitively among the rule's
commands. -/
def ruleAllows (r : Rule) (args : List Str) : Bool :=
  r.commands.isEmpty ||
    (!(firstPositionalArg args).isEmpty &&
      r.commands.any (fun c => eqFoldB (firstPositionalArg args) c))

/-- The amended claim C2: as `specPermit`, except that the rule's program is
normalized without directory stripping (as `matchProgram` does) and an empty
first positional argument never satisfies a command restriction. -/
def amendedPermit (lr : LoadResult) (file : Str) (args : List Str) : Bool :=
  match lr.allow.find? (fun r => matchProgram (normalizeProgram file) r.program) with
  | none => false
  | some r => ruleAllows r args

end Allowlist

namespace PathConv

/-- The config-override fold of `NewConverter`. -/
def configFold (cfg : List (Str × Str)) (acc : List Alias) : List Alias :=
  cfg.foldl (fun acc p => upsertAlias acc (upperStr p.1) p.2) acc

end PathConv

/-- A loaded allowlist whose single rule has the empty string among its
commands. -/
def emptyCmdLR : Allowlist.LoadResult :=
  { loaded := true, path := [], allow := [{ program := str "p4", commands := [[]] }] }

/-- A loaded allowlist whose single rule carries a directory prefix in its
program field. -/
def dirRuleLR : Allowlist.LoadResult :=
  { loaded := true, path := [], allow := [{ program := str "tools/p4", commands := [] }] }

/-- The spec's example allowlist: rule `{program: p4, commands: [edit, sync]}`. -/
def p4EditSyncLR : Allowlist.LoadResult :=
  { loaded := true, path := str "allowlist.toml",
    allow := [{ program := str "p4", commands := [str "edit", str "sync"] }] }

/-- A loaded allowlist with one unrestricted `p4` rule. -/
def p4OnlyLR : Allowlist.LoadResult :=
  { loaded := true, path := [], allow := [{ program := str "p4", commands := [] }] }

/-- As `p4OnlyLR`, followed by a second unrestricted `git` rule. -/
def p4GitLR : Allowlist.LoadResult :=
  { loaded := true, path := [],
    allow := [{ program := str "p4", commands := [] },
              { program := str "git", commands := [] }] }

/-- An empty converter for witnesses. -/
def emptyConv : PathConv.Converter := { aliases := [], preferAliases := true }

/-- A constantly failing path oracle for witnesses: the passthrough results
cannot come from it. -/
def failOracle : Str → Except Str Str := fun _ => Except.error []

/-- An empty drives snapshot for witnesses. -/
def emptyDrivesResp : Protocol.DrivesResponse :=
  { drives := [], username := [], localAppData := [] }

/-- A configuration forwarding `PATH` and (futilely) `p4passwd` under the
default block list, for the C10 witness. -/
def envCfgW : Cfg.Config :=
  { drives := { aliases := [], preferAliases := true, autoDetect := true },
    env := { forward := [str "PATH", str "p4passwd"],
             block := [str "P4PASSWD", str "P4TICKETS", str "P4TRUST"] },
    defaults := { verb := str "open", showDefault := str "normal" } }

/-- An environment oracle mapping every name to itself. -/
def idEnv : Str → Option Str := fun n => some n

/-- The request `p4 open` sent to the host entry points in witnesses. -/
def p4OpenReq : Protocol.LaunchRequest :=
  { file := str "p4", verb := str "open", args := [str "open"], workDir := [],
    showState := str "normal", wait := false, envVars := [] }

/-- A constant `shellexec.Execute` oracle for witnesses. -/
def nullExecute : Protocol.LaunchRequest → Protocol.LaunchResponse :=
  fun _ => { exitCode := 0, pid := 0, error := [], errCode := 0 }

/-- A constant `shellexec.ExecuteConsole` oracle for witnesses. -/
def okConsole : Protocol.LaunchRequest → Except Str Int := fun _ => Except.ok 0

/-- The denial message `Check` produces for `p4 open` under the edit/sync
rule. -/
def p4OpenDenyMsg : Str :=
  Allowlist.subcmdDeniedMsg (str "p4") (str "open") [str "edit", str "sync"]

/-- The alias `{P: C:\dev\workspace}` of the spec's scenarios. -/
def pAlias : PathConv.Alias := { letter := str "P", target := str "C:\\dev\\workspace" }

/-- A subst drive mapping `S:` to `C:\ws`, for the C9 witness. -/
def substDriveW : Protocol.DriveInfo :=
  { letter := str "S", dtype := Protocol.DriveType.subst, target := str "C:\\ws",
    label := [] }


namespace Allowlist


lemma checkRules_none_iff (path base : Str) (args : List Str) (rules : List Rule) :
    checkRules path base args rules = none ↔
      (match rules.find? (fun r => matchProgram base r.program) with
        | none => false
        | some r => ruleAllows r args) = true := by
  induction rules with
  | nil => simp [checkRules]
  | cons r rest ih =>
    by_cases h : matchProgram base r.program
    · rw [show List.find? (fun r => matchProgram base r.program) (r :: rest) = some r from
        List.find?_cons_of_pos rest h]
      simp only [checkRules, if_pos h, ruleAllows]
      by_cases hc : r.commands.isEmpty
      · simp [hc]
      · simp only [hc, if_neg (by simpa using hc), Bool.false_or]
        by_cases hs : firstPositionalArg args = []
        · simp [hs]
        · simp only [if_neg hs]
          by_cases ha : r.commands.any (fun allowed => eqFoldB (firstPositionalArg args) allowed)
          · simp [ha, List.isEmpty_iff, hs]
          · simp only [if_neg ha]
            simp [List.isEmpty_iff, hs, ha]
    · rw [show List.find? (fun r => matchProgram base r.program) (r :: rest) =
          List.find? (fun r => matchProgram base r.program) rest from
        List.find?_cons_of_neg rest (by simpa using h)]
      simp only [checkRules, if_neg h]
      exact ih

/-- The first-match structure of `Check`: a matching head rule decides the
outcome by itself, a non-matching head rule is skipped. -/
lemma check_cons_of_match (path : Str) (r : Rule) (rest : List Rule) (file : Str)
    (args : List Str) (h : matchProgram (normalizeProgram file) r.program = true) :
    check { loaded := true, path := path, allow := r :: rest } file args =
      check { loaded := true, path := path, allow := [r] } file args := by
  simp [check, checkRules, h]

lemma check_cons_of_no_match (path : Str) (r : Rule) (rest : List Rule) (file : Str)
    (args : List Str) (h : matchProgram (normalizeProgram file) r.program = false) :
    check { loaded := true, path := path, allow := r :: rest } file args =
      check { loaded := true, path := path, allow := rest } file args := by
  simp [check, checkRules, h]

end Allowlist


/-- Claim C2 fails as stated: the claim's permit condition (`specPermit`,
written from its words) disagrees with `Check` (1) when a matched rule's
command list contains the empty string and the first positional argument is
the empty token — the claim permits, the code treats it as "no subcommand"
and denies — and (2) when a rule's program field carries a directory prefix —
the claim strips it before comparing, the code does not, so the rule never
matches and the code denies. -/
theorem C2_counterexample :
    (Allowlist.specPermit emptyCmdLR (str "p4") [[]] = true ∧
      Allowlist.check emptyCmdLR (str "p4") [[]] ≠ none) ∧
    (Allowlist.specPermit dirRuleLR (str "p4") [] = true ∧
      Allowlist.check dirRuleLR (str "p4") [] ≠ none) := by
  refine ⟨⟨by decide, by decide⟩, ⟨by decide, by decide⟩⟩

/-- Claim C2 (amended): for every loaded allowlist, `Check` permits iff the
first rule whose program (lowercased, `.exe` stripped, no directory stripping)
matches the normalized base name exists and either has an empty command list
or the first positional argument is non-empty and case-insensitively equals
one of its commands; in particular, under rule `{program: p4, commands:
[edit, sync]}`, `(p4, [open, file.txt])` is denied and `(p4.exe, [EDIT,
file.txt])` is permitted. -/
theorem C2_check_iff_amendedPermit :
    (∀ (lr : Allowlist.LoadResult) (file : Str) (args : List Str), lr.loaded = true →
      (Allowlist.check lr file args = none ↔ Allowlist.amendedPermit lr file args = true)) ∧
    Allowlist.check p4EditSyncLR (str "p4") [str "open", str "file.txt"] ≠ none ∧
    Allowlist.check p4EditSyncLR (str "p4.exe") [str "EDIT", str "file.txt"] = none := by
  refine ⟨fun lr file args hl => ?_, by decide, by decide⟩
  rw [Allowlist.check, if_neg (by simp [hl])]
  rw [Allowlist.amendedPermit]
  exact Allowlist.checkRules_none_iff lr.path (Allowlist.normalizeProgram file) args lr.allow

/-- Witness for C2's amended theorem at a concrete loaded allowlist. -/
theorem C2_check_iff_amendedPermit_witness :
    p4OnlyLR.loaded = true ∧
      (Allowlist.check p4OnlyLR (str "p4") [] = none ↔
        Allowlist.amendedPermit p4OnlyLR (str "p4") [] = true) :=
  ⟨by decide, C2_check_iff_amendedPermit.1 p4OnlyLR (str "p4") [] (by decide)⟩

/-- Claim C3 fails as stated: a policy file that is present but unreadable or
undecodable (`toml.DecodeFile` fails) yields `Loaded = false` — not the
claimed `Loaded = true` — and `Check` then permits every request, here `p4`
with empty args. -/
theorem C3_counterexample :
    (Allowlist.load (some none) (str "allowlist.toml")).loaded = false ∧
      Allowlist.check (Allowlist.load (some none) (str "allowlist.toml")) (str "p4") [] =
        none := by
  exact ⟨rfl, rfl⟩

/-- Claim C3 (amended): an absent policy file — or a present one that fails
to read or decode, which the code treats the same way — gives
`loaded = false` and `Check` permits everything (including empty args); a
present file that decodes gives `loaded = true` with its rules held in
order; a decoded file with zero rules denies every request; and the rule
order decides by first match — a matching head rule settles the outcome
alone, a non-matching head rule is skipped. -/
theorem C3_load_and_check :
    (∀ (path : Str), (Allowlist.load none path).loaded = false) ∧
    (∀ (path file : Str) (args : List Str),
      Allowlist.check (Allowlist.load none path) file args = none) ∧
    (∀ (path : Str), (Allowlist.load (some none) path).loaded = false) ∧
    (∀ (path file : Str) (args : List Str),
      Allowlist.check (Allowlist.load (some none) path) file args = none) ∧
    (∀ (path : Str) (rules : List Allowlist.Rule),
      (Allowlist.load (some (some rules)) path).loaded = true ∧
        (Allowlist.load (some (some rules)) path).allow = rules) ∧
    (∀ (path file : Str) (args : List Str),
      Allowlist.check (Allowlist.load (some (some [])) path) file args =
        some (Allowlist.deniedProgramMsg (Allowlist.normalizeProgram file) path)) ∧
    (∀ (path : Str) (r : Allowlist.Rule) (rest : List Allowlist.Rule) (file : Str)
        (args : List Str), Allowlist.matchProgram (Allowlist.normalizeProgram file) r.program = true →
      Allowlist.check { loaded := true, path := path, allow := r :: rest } file args =
        Allowlist.check { loaded := true, path := path, allow := [r] } file args) ∧
    (∀ (path : Str) (r : Allowlist.Rule) (rest : List Allowlist.Rule) (file : Str)
        (args : List Str), Allowlist.matchProgram (Allowlist.normalizeProgram file) r.program = false →
      Allowlist.check { loaded := true, path := path, allow := r :: rest } file args =
        Allowlist.check { loaded := true, path := path, allow := rest } file args) := by
  refine ⟨fun path => rfl, fun path file args => ?_, fun path => rfl,
    fun path file args => ?_, fun path rules => ⟨rfl, rfl⟩, fun path file args => ?_,
    Allowlist.check_cons_of_match, Allowlist.check_cons_of_no_match⟩
  · simp [Allowlist.check, Allowlist.load]
  · simp [Allowlist.check, Allowlist.load]
  · simp [Allowlist.check, Allowlist.load, Allowlist.checkRules]

namespace PathConv

lemma isBareCommand_not_url (p : Str) (h : isBareCommand p = true) :
    ¬((str "http://").isPrefixOf (lowerStr p) = true ∨
      (str "https://").isPrefixOf (lowerStr p) = true) := by
  intro hu
  rw [isBareCommand] at h
  simp at h hu
  rcases hu with hu | hu
  · exact h.2.2.1 hu
  · exact h.2.2.2 hu

end PathConv

/-- Claim C6: `ToWindows` returns URLs (case-insensitive `http://` or
`https://` scheme) and bare command names (no separator, no leading dot, not
a URL) unchanged with no error, whatever the alias configuration and
whatever the `filepath.Abs`/`wslpath` collaborators do. -/
theorem C6_passthrough :
    (∀ (c : PathConv.Converter) (abs wslpath : Str → Except Str Str) (p : Str),
      ((str "http://").isPrefixOf (lowerStr p) = true ∨
          (str "https://").isPrefixOf (lowerStr p) = true) →
        PathConv.toWindows c abs wslpath p = Except.ok p) ∧
    (∀ (c : PathConv.Converter) (abs wslpath : Str → Except Str Str) (p : Str),
      PathConv.isBareCommand p = true →
        PathConv.toWindows c abs wslpath p = Except.ok p) := by
  constructor
  · intro c abs wslpath p h
    rw [PathConv.toWindows, if_pos h]
  · intro c abs wslpath p h
    rw [PathConv.toWindows, if_neg (PathConv.isBareCommand_not_url p h), if_pos h]


/-- Witness for C6 at the URL `http://x` and the bare command `p4`. -/
theorem C6_passthrough_witness :
    ((str "http://").isPrefixOf (lowerStr (str "http://x")) = true ∨
        (str "https://").isPrefixOf (lowerStr (str "http://x")) = true) ∧
      PathConv.toWindows emptyConv failOracle failOracle (str "http://x") =
        Except.ok (str "http://x") ∧
      PathConv.isBareCommand (str "p4") = true ∧
      PathConv.toWindows emptyConv failOracle failOracle (str "p4") = Except.ok (str "p4") :=
  ⟨by decide,
    C6_passthrough.1 emptyConv failOracle failOracle (str "http://x") (by decide),
    by decide,
    C6_passthrough.2 emptyConv failOracle failOracle (str "p4") (by decide)⟩

/-- Claim C8: `Get` answers from the cache exactly when the file is present,
parseable and fresh (`now − timestamp ≤ ttl`, default 1 hour), and otherwise
— missing, corrupt (treated like missing) or expired — hands over to
`Refresh`; a 2-hour-old snapshot under the default ttl goes through `Refresh`
while a 30-minute-old one is answered from the cache; and `Refresh` returns
the freshly fetched data even when persisting fails. -/
theorem C8_cache :
    (∀ (c : DriveCache.Cache) (cf : DriveCache.CacheFileData) (now : Int)
        (fetch : Except Str Protocol.DrivesResponse) (saveOk : Bool),
      now - cf.timestamp ≤ c.ttl →
        DriveCache.get c (some (some cf)) now fetch saveOk =
          (Except.ok cf.data, some (some cf))) ∧
    (∀ (c : DriveCache.Cache) (st : DriveCache.CacheState) (now : Int)
        (fetch : Except Str Protocol.DrivesResponse) (saveOk : Bool),
      (st = none ∨ st = some none ∨
          ∃ cf, st = some (some cf) ∧ now - cf.timestamp > c.ttl) →
        DriveCache.get c st now fetch saveOk = DriveCache.refresh st now fetch saveOk) ∧
    (∀ (st : DriveCache.CacheState) (now : Int) (resp : Protocol.DrivesResponse)
        (saveOk : Bool),
      (DriveCache.refresh st now (Except.ok resp) saveOk).1 = Except.ok resp ∧
        DriveCache.refresh st now (Except.ok resp) false = (Except.ok resp, st)) ∧
    (∀ (c : DriveCache.Cache) (now : Int) (fetch : Except Str Protocol.DrivesResponse)
        (saveOk : Bool),
      (DriveCache.get c (some none) now fetch saveOk).1 =
        (DriveCache.get c none now fetch saveOk).1) ∧
    DriveCache.new 0 = { ttl := DriveCache.hourNs } ∧
    (∀ (cf : DriveCache.CacheFileData) (now : Int)
        (fetch : Except Str Protocol.DrivesResponse) (saveOk : Bool),
      cf.timestamp = now - 2 * DriveCache.hourNs →
        DriveCache.get (DriveCache.new 0) (some (some cf)) now fetch saveOk =
          DriveCache.refresh (some (some cf)) now fetch saveOk) ∧
    (∀ (cf : DriveCache.CacheFileData) (now : Int)
        (fetch : Except Str Protocol.DrivesResponse) (saveOk : Bool),
      cf.timestamp = now - DriveCache.hourNs / 2 →
        DriveCache.get (DriveCache.new 0) (some (some cf)) now fetch saveOk =
          (Except.ok cf.data, some (some cf))) := by
  refine ⟨fun c cf now fetch saveOk h => ?_, fun c st now fetch saveOk h => ?_,
    fun st now resp saveOk => ⟨rfl, rfl⟩, fun c now fetch saveOk => ?_, rfl,
    fun cf now fetch saveOk h => ?_, fun cf now fetch saveOk h => ?_⟩
  · rw [DriveCache.get, DriveCache.load, if_neg (not_lt.mpr h)]
  · rcases h with rfl | rfl | ⟨cf, rfl, hexp⟩
    · rfl
    · rfl
    · rw [DriveCache.get, DriveCache.load, if_pos hexp]
  · cases fetch <;> rfl
  · rw [DriveCache.get, DriveCache.load, if_pos ?_]
    rw [h, show (DriveCache.new 0).ttl = DriveCache.hourNs from rfl]
    simp only [DriveCache.hourNs]
    omega
  · rw [DriveCache.get, DriveCache.load, if_neg ?_]
    rw [h, show (DriveCache.new 0).ttl = DriveCache.hourNs from rfl]
    simp only [DriveCache.hourNs]
    omega


/-- Witness for C8: a snapshot 30 minutes old under the default 1-hour ttl is
served from the cache. -/
theorem C8_cache_witness :
    (0 : Int) - (-1800000000000 : Int) ≤ (DriveCache.new 0).ttl ∧
      DriveCache.get (DriveCache.new 0)
          (some (some { timestamp := -1800000000000, data := emptyDrivesResp })) 0
          (Except.error []) false =
        (Except.ok emptyDrivesResp,
          some (some { timestamp := -1800000000000, data := emptyDrivesResp })) :=
  ⟨by decide,
    C8_cache.1 (DriveCache.new 0) { timestamp := -1800000000000, data := emptyDrivesResp } 0
      (Except.error []) false (by decide)⟩

namespace Launch

lemma collectLoop_mem (blocked : List Str) (env : Str → Option Str) :
    ∀ (fwd : List Str) (acc : List (Str × Str)) (nv : Str × Str),
      nv ∈ collectLoop blocked env acc fwd →
        nv ∈ acc ∨ blocked.contains (upperStr nv.1) = false := by
  intro fwd
  induction fwd with
  | nil => intro acc nv h; exact Or.inl h
  | cons name rest ih =>
    intro acc nv h
    rw [collectLoop] at h
    by_cases hb : blocked.contains (upperStr name) = true
    · rw [if_pos hb] at h
      exact ih acc nv h
    · rw [if_neg hb] at h
      cases he : env name with
      | none => rw [he] at h; exact ih acc nv h
      | some v =>
        rw [he] at h
        rcases ih _ nv h with hmem | hfree
        · rcases List.mem_append.mp hmem with hl | hr
          · exact Or.inl hl
          · obtain rfl : nv = (name, v) := by simpa using hr
            exact Or.inr (by simpa using hb)
        · exact Or.inr hfree

end Launch

/-- Claim C10: for every configuration and environment, `collectEnvVars`
forwards no variable whose uppercased name equals an uppercased `env.block`
entry (blocking is case-insensitive and applies even to names listed in
`env.forward`); an empty `env.forward` forwards nothing; and the default
blocked set is `P4PASSWD, P4TICKETS, P4TRUST`. -/
theorem C10_env_block :
    (∀ (cfg : Cfg.Config) (env : Str → Option Str) (n v : Str),
      (n, v) ∈ Launch.collectEnvVars cfg env →
        ∀ b ∈ cfg.env.block, upperStr n ≠ upperStr b) ∧
    (∀ (cfg : Cfg.Config) (env : Str → Option Str),
      cfg.env.forward = [] → Launch.collectEnvVars cfg env = []) ∧
    Cfg.defaults.env.block = [str "P4PASSWD", str "P4TICKETS", str "P4TRUST"] := by
  refine ⟨fun cfg env n v hmem b hb heq => ?_, fun cfg env hf => ?_, rfl⟩
  · rw [Launch.collectEnvVars] at hmem
    by_cases hempty : cfg.env.forward.isEmpty
    · rw [if_pos hempty] at hmem
      exact absurd hmem (List.not_mem_nil _)
    · rw [if_neg hempty] at hmem
      rcases Launch.collectLoop_mem _ env _ _ _ hmem with hacc | hfree
      · exact absurd hacc (List.not_mem_nil _)
      · have hin : upperStr n ∈ cfg.env.block.map upperStr :=
          List.mem_map.mpr ⟨b, hb, heq.symm⟩
        have hnotin : upperStr n ∉ cfg.env.block.map upperStr := by simpa using hfree
        exact hnotin hin
  · simp [Launch.collectEnvVars, hf]


/-- Witness for C10: under `envCfgW`, `PATH` is forwarded and its name
clashes with no block entry (while the blocked `p4passwd` is absent). -/
theorem C10_env_block_witness :
    (str "PATH", str "PATH") ∈ Launch.collectEnvVars envCfgW idEnv ∧
      (∀ b ∈ envCfgW.env.block, upperStr (str "PATH") ≠ upperStr b) ∧
      Launch.collectEnvVars envCfgW idEnv = [(str "PATH", str "PATH")] :=
  ⟨by decide, C10_env_block.1 envCfgW idEnv (str "PATH") (str "PATH") (by decide), by decide⟩

/-- Claim C1: in both host launch modes the policy check is the first
observable action, the trace is either the bare check (on denial) or the
check followed by exactly one execution primitive, and a denial produces the
fixed access-denied classification — `errCode` 5 in the `--launch` response,
exit status 5 in `--exec` — without the execution primitive ever appearing in
the trace. -/
theorem C1_policy_check_first :
    (∀ (al : Allowlist.LoadResult) (req : Protocol.LaunchRequest)
        (f : Protocol.LaunchRequest → Protocol.LaunchResponse),
      (Host.runLaunch al req f).1.head? = some (Host.Event.policyCheck req.file req.args) ∧
        ((Host.runLaunch al req f).1 = [Host.Event.policyCheck req.file req.args] ∨
          (Host.runLaunch al req f).1 =
            [Host.Event.policyCheck req.file req.args, Host.Event.execute req])) ∧
    (∀ (al : Allowlist.LoadResult) (req : Protocol.LaunchRequest)
        (g : Protocol.LaunchRequest → Except Str Int),
      (Host.runExec al req g).1.head? = some (Host.Event.policyCheck req.file req.args) ∧
        ((Host.runExec al req g).1 = [Host.Event.policyCheck req.file req.args] ∨
          (Host.runExec al req g).1 =
            [Host.Event.policyCheck req.file req.args, Host.Event.executeConsole req])) ∧
    (∀ (al : Allowlist.LoadResult) (req : Protocol.LaunchRequest)
        (f : Protocol.LaunchRequest → Protocol.LaunchResponse) (msg : Str),
      Allowlist.check al req.file req.args = some msg →
        (∀ e ∈ (Host.runLaunch al req f).1, e.isExec = false) ∧
          (Host.runLaunch al req f).2 =
            { exitCode := 0, pid := 0, error := msg, errCode := 5 }) ∧
    (∀ (al : Allowlist.LoadResult) (req : Protocol.LaunchRequest)
        (g : Protocol.LaunchRequest → Except Str Int) (msg : Str),
      Allowlist.check al req.file req.args = some msg →
        (∀ e ∈ (Host.runExec al req g).1, e.isExec = false) ∧
          (Host.runExec al req g).2 = 5) := by
  refine ⟨fun al req f => ?_, fun al req g => ?_, fun al req f msg h => ?_,
    fun al req g msg h => ?_⟩
  · unfold Host.runLaunch
    cases Allowlist.check al req.file req.args <;> simp
  · unfold Host.runExec
    cases Allowlist.check al req.file req.args
    · cases g req <;> simp
    · simp
  · unfold Host.runLaunch
    rw [h]
    exact ⟨by simp [Host.Event.isExec], rfl⟩
  · unfold Host.runExec
    rw [h]
    exact ⟨by simp [Host.Event.isExec], rfl⟩


/-- Witness for C1 at a denied concrete request (`p4 open` under the
edit/sync rule): no execution event, `errCode` 5 and exit status 5. -/
theorem C1_policy_check_first_witness :
    Allowlist.check p4EditSyncLR p4OpenReq.file p4OpenReq.args = some p4OpenDenyMsg ∧
      (∀ e ∈ (Host.runLaunch p4EditSyncLR p4OpenReq nullExecute).1, e.isExec = false) ∧
      (Host.runExec p4EditSyncLR p4OpenReq okConsole).2 = 5 :=
  ⟨by decide,
    (C1_policy_check_first.2.2.1 p4EditSyncLR p4OpenReq nullExecute p4OpenDenyMsg (by decide)).1,
    (C1_policy_check_first.2.2.2 p4EditSyncLR p4OpenReq okConsole p4OpenDenyMsg (by decide)).2⟩

/-- Witness for C3 at a concrete rule list, file and args. -/
theorem C3_load_and_check_witness :
    Allowlist.matchProgram (Allowlist.normalizeProgram (str "p4")) (str "p4") = true ∧
      Allowlist.check p4GitLR (str "p4") [] = Allowlist.check p4OnlyLR (str "p4") [] :=
  ⟨by decide, C3_load_and_check.2.2.2.2.2.2.1 [] _ _ (str "p4") [] (by decide)⟩

namespace PathConv

lemma applyAliasStep_no_match (N : Str) (b : Nat × Str × Str) (a : Alias)
    (h : ¬ matchesN a N) : applyAliasStep N b a = b := by
  rw [applyAliasStep]
  by_cases hp : (trimEndBS (lowerStr (replaceSlash a.target))).isPrefixOf N
  · rw [if_pos hp]
    have hpre : normTargetOf a <+: N := by
      rw [normTargetOf]; exact List.isPrefixOf_iff_prefix.mp hp
    have hbad : ¬(N.drop (normTargetOf a).length = [] ∨
        (N.drop (normTargetOf a).length).head? = some '\\') := by
      intro hb; exact h ⟨hpre, hb⟩
    push_neg at hbad
    rw [if_pos]
    exact ⟨by simpa [normTargetOf] using hbad.1, by simpa [normTargetOf] using hbad.2⟩
  · rw [if_neg hp]

lemma applyAliasStep_boundary (N : Str) (b : Nat × Str × Str) (a : Alias)
    (h : matchesN a N) :
    applyAliasStep N b a =
      if b.1 < (normTargetOf a).length
      then ((normTargetOf a).length, a.letter, normTargetOf a) else b := by
  obtain ⟨hpre, hb⟩ := h
  rw [applyAliasStep]
  rw [if_pos (by simpa [normTargetOf] using List.isPrefixOf_iff_prefix.mpr hpre)]
  rw [if_neg (by simp only [normTargetOf] at hb ⊢; tauto)]
  rfl

lemma foldl_applyAliasStep_spec (N : Str) :
    ∀ (as : List Alias) (acc : Nat × Str × Str),
      acc.1 ≤ (as.foldl (applyAliasStep N) acc).1 ∧
      (∀ a ∈ as, matchesN a N →
        (normTargetOf a).length ≤ (as.foldl (applyAliasStep N) acc).1) ∧
      ((as.foldl (applyAliasStep N) acc) = acc ∨
        ∃ a ∈ as, matchesN a N ∧
          (as.foldl (applyAliasStep N) acc) =
            ((normTargetOf a).length, a.letter, normTargetOf a)) := by
  intro as
  induction as with
  | nil => exact fun acc => ⟨le_refl _, by simp, Or.inl rfl⟩
  | cons a tail ih =>
    intro acc
    rw [List.foldl_cons]
    by_cases hm : matchesN a N
    · rw [applyAliasStep_boundary N acc a hm]
      by_cases hlt : acc.1 < (normTargetOf a).length
      · rw [if_pos hlt]
        obtain ⟨ih1, ih2, ih3⟩ := ih ((normTargetOf a).length, a.letter, normTargetOf a)
        refine ⟨le_trans (le_of_lt hlt) ih1, ?_, ?_⟩
        · intro c hc hmc
          rcases List.mem_cons.mp hc with rfl | hc
          · exact ih1
          · exact ih2 c hc hmc
        · rcases ih3 with heq | ⟨c, hc, hmc, heq⟩
          · exact Or.inr ⟨a, List.mem_cons_self a tail, hm, heq⟩
          · exact Or.inr ⟨c, List.mem_cons_of_mem a hc, hmc, heq⟩
      · rw [if_neg hlt]
        obtain ⟨ih1, ih2, ih3⟩ := ih acc
        refine ⟨ih1, ?_, ?_⟩
        · intro c hc hmc
          rcases List.mem_cons.mp hc with rfl | hc
          · exact le_trans (not_lt.mp hlt) ih1
          · exact ih2 c hc hmc
        · rcases ih3 with heq | ⟨c, hc, hmc, heq⟩
          · exact Or.inl heq
          · exact Or.inr ⟨c, List.mem_cons_of_mem a hc, hmc, heq⟩
    · rw [applyAliasStep_no_match N acc a hm]
      obtain ⟨ih1, ih2, ih3⟩ := ih acc
      refine ⟨ih1, ?_, ?_⟩
      · intro c hc hmc
        rcases List.mem_cons.mp hc with rfl | hc
        · exact absurd hmc hm
        · exact ih2 c hc hmc
      · rcases ih3 with heq | ⟨c, hc, hmc, heq⟩
        · exact Or.inl heq
        · exact Or.inr ⟨c, List.mem_cons_of_mem a hc, hmc, heq⟩

lemma applyAlias_of_no_match (aliases : List Alias) (p : Str)
    (h : ∀ a ∈ aliases, ¬ aliasMatches a p) : applyAlias aliases p = p := by
  simp only [applyAlias]
  rcases (foldl_applyAliasStep_spec (lowerStr (replaceSlash p)) aliases (0, [], [])).2.2
    with heq | ⟨a, ha, hm, _⟩
  · rw [heq]
    simp
  · exact absurd hm (h a ha)

lemma applyAlias_selects (aliases : List Alias) (p : Str) (a : Alias)
    (ha : a ∈ aliases) (hm : aliasMatches a p) (hne : normTargetOf a ≠ []) :
    ∃ b ∈ aliases, aliasMatches b p ∧
      (∀ c ∈ aliases, aliasMatches c p →
        (normTargetOf c).length ≤ (normTargetOf b).length) ∧
      applyAlias aliases p =
        upperStr b.letter ++ ':' :: replaceSlash (p.drop (normTargetOf b).length) := by
  obtain ⟨h1, h2, h3⟩ := foldl_applyAliasStep_spec (lowerStr (replaceSlash p)) aliases (0, [], [])
  rcases h3 with heq | ⟨b, hb, hmb, heq⟩
  · exfalso
    have hla := h2 a ha hm
    rw [heq] at hla
    exact hne (List.eq_nil_of_length_eq_zero (Nat.le_zero.mp hla))
  · refine ⟨b, hb, hmb, fun c hc hmc => ?_, ?_⟩
    · have := h2 c hc hmc
      rw [heq] at this
      exact this
    · have hla := h2 a ha hm
      rw [heq] at hla
      have hbne : (normTargetOf b).length ≠ 0 := fun h0 =>
        hne (List.eq_nil_of_length_eq_zero (Nat.le_zero.mp (h0 ▸ hla)))
      simp only [applyAlias]
      rw [heq]
      simp [hbne]

end PathConv

namespace PathConv

lemma applyAlias_exact (aliases : List Alias) (p : Str) (a : Alias)
    (ha : a ∈ aliases) (hm : aliasMatches a p) (hne : normTargetOf a ≠ [])
    (hexact : (normTargetOf a).length = (normPath p).length) :
    ∃ b ∈ aliases, applyAlias aliases p = upperStr b.letter ++ [':'] := by
  obtain ⟨b, hb, hmb, hmax, heq⟩ := applyAlias_selects aliases p a ha hm hne
  have hble : (normTargetOf b).length ≤ (normPath p).length := hmb.1.length_le
  have hbeq : (normTargetOf b).length = (normPath p).length :=
    le_antisymm hble (by rw [← hexact]; exact hmax a ha hm)
  have hplen : (normPath p).length = p.length := by
    simp [normPath, replaceSlash, lowerStr]
  have hdrop : p.drop (normTargetOf b).length = [] := by
    rw [hbeq, hplen]
    exact List.drop_length p
  refine ⟨b, hb, ?_⟩
  rw [heq, hdrop]
  rfl

end PathConv


/-- Claim C4: among the aliases whose normalized target is a path-boundary-
aligned prefix of the path, `applyAlias` rewrites with one of maximal target
length (so with two nested matching targets the longer one is chosen, never
the shorter — configured or not, only length decides); and the spec's
scenario: `{P: C:\dev\workspace}` maps `C:\dev\workspace\project\file.txt` to
`P:\project\file.txt`. -/
theorem C4_longest_selection :
    (∀ (aliases : List PathConv.Alias) (p : Str) (a : PathConv.Alias),
      a ∈ aliases → PathConv.aliasMatches a p → PathConv.normTargetOf a ≠ [] →
        ∃ b ∈ aliases, PathConv.aliasMatches b p ∧
          (∀ c ∈ aliases, PathConv.aliasMatches c p →
            (PathConv.normTargetOf c).length ≤ (PathConv.normTargetOf b).length) ∧
          PathConv.applyAlias aliases p =
            upperStr b.letter ++
              ':' :: PathConv.replaceSlash (p.drop (PathConv.normTargetOf b).length)) ∧
    (∀ (aliases : List PathConv.Alias) (p : Str) (a b : PathConv.Alias),
      a ∈ aliases → b ∈ aliases → PathConv.aliasMatches a p → PathConv.aliasMatches b p →
        (PathConv.normTargetOf a).length < (PathConv.normTargetOf b).length →
          ∃ s ∈ aliases, PathConv.aliasMatches s p ∧
            (PathConv.normTargetOf b).length ≤ (PathConv.normTargetOf s).length ∧
            (PathConv.normTargetOf a).length < (PathConv.normTargetOf s).length ∧
            PathConv.applyAlias aliases p =
              upperStr s.letter ++
                ':' :: PathConv.replaceSlash (p.drop (PathConv.normTargetOf s).length)) ∧
    PathConv.applyAlias [pAlias] (str "C:\\dev\\workspace\\project\\file.txt") =
      str "P:\\project\\file.txt" := by
  refine ⟨PathConv.applyAlias_selects, ?_, by decide⟩
  intro aliases p a b ha hb hma hmb hlen
  have hbne : PathConv.normTargetOf b ≠ [] := by
    intro h0
    rw [h0] at hlen
    simp at hlen
  obtain ⟨s, hs, hms, hmax, heq⟩ := PathConv.applyAlias_selects aliases p b hb hmb hbne
  exact ⟨s, hs, hms, hmax b hb hmb, lt_of_lt_of_le hlen (hmax b hb hmb), heq⟩

/-- Witness for C4 at the spec's scenario alias and path. -/
theorem C4_longest_selection_witness :
    (pAlias ∈ [pAlias] ∧
        PathConv.aliasMatches pAlias (str "C:\\dev\\workspace\\project\\file.txt") ∧
        PathConv.normTargetOf pAlias ≠ []) ∧
      ∃ b ∈ [pAlias], PathConv.aliasMatches b (str "C:\\dev\\workspace\\project\\file.txt") ∧
        (∀ c ∈ [pAlias], PathConv.aliasMatches c (str "C:\\dev\\workspace\\project\\file.txt") →
          (PathConv.normTargetOf c).length ≤ (PathConv.normTargetOf b).length) ∧
        PathConv.applyAlias [pAlias] (str "C:\\dev\\workspace\\project\\file.txt") =
          upperStr b.letter ++
            ':' :: PathConv.replaceSlash
              ((str "C:\\dev\\workspace\\project\\file.txt").drop
                (PathConv.normTargetOf b).length) :=
  ⟨⟨by decide, by decide, by decide⟩,
    C4_longest_selection.1 [pAlias] (str "C:\\dev\\workspace\\project\\file.txt") pAlias
      (by decide) (by decide) (by decide)⟩

/-- Claim C5: a shared string prefix that does not end at a separator
boundary never matches (in general and at the spec's
`C:\dev\workspace2\file.txt` example); with no matching alias the path is
returned unchanged; and an exact match (no remainder) yields just
`"<LETTER>:"`, as in `C:\dev\workspace ⇒ P:`. -/
theorem C5_boundary_and_edges :
    (∀ (a : PathConv.Alias) (p : Str) (rest : Str),
      PathConv.normPath p = PathConv.normTargetOf a ++ rest → rest ≠ [] →
        rest.head? ≠ some '\\' → ¬ PathConv.aliasMatches a p) ∧
    PathConv.applyAlias [pAlias] (str "C:\\dev\\workspace2\\file.txt") =
      str "C:\\dev\\workspace2\\file.txt" ∧
    (∀ (aliases : List PathConv.Alias) (p : Str),
      (∀ a ∈ aliases, ¬ PathConv.aliasMatches a p) → PathConv.applyAlias aliases p = p) ∧
    (∀ (aliases : List PathConv.Alias) (p : Str) (a : PathConv.Alias),
      a ∈ aliases → PathConv.aliasMatches a p → PathConv.normTargetOf a ≠ [] →
        (PathConv.normTargetOf a).length = (PathConv.normPath p).length →
          ∃ b ∈ aliases, PathConv.applyAlias aliases p = upperStr b.letter ++ [':']) ∧
    PathConv.applyAlias [pAlias] (str "C:\\dev\\workspace") = str "P:" := by
  refine ⟨?_, by decide, PathConv.applyAlias_of_no_match, PathConv.applyAlias_exact, by decide⟩
  intro a p rest hsplit hne hhead hm
  obtain ⟨hpre, hb⟩ := hm
  rw [hsplit, List.drop_left] at hb
  rcases hb with h | h
  · exact hne h
  · exact hhead h

/-- Witness for C5: the boundary counter-path does not match, an unrelated
path is unchanged, and the exact-match edge yields `P:`. -/
theorem C5_boundary_and_edges_witness :
    (PathConv.normPath (str "C:\\dev\\workspace2\\file.txt") =
        PathConv.normTargetOf pAlias ++ str "2\\file.txt" ∧
      str "2\\file.txt" ≠ [] ∧ (str "2\\file.txt").head? ≠ some '\\') ∧
      ¬ PathConv.aliasMatches pAlias (str "C:\\dev\\workspace2\\file.txt") ∧
      ((∀ a ∈ [pAlias], ¬ PathConv.aliasMatches a (str "D:\\other")) ∧
        PathConv.applyAlias [pAlias] (str "D:\\other") = str "D:\\other") ∧
      ∃ b ∈ [pAlias], PathConv.applyAlias [pAlias] (str "C:\\dev\\workspace") =
        upperStr b.letter ++ [':'] :=
  ⟨⟨by decide, by decide, by decide⟩,
    C5_boundary_and_edges.1 pAlias (str "C:\\dev\\workspace2\\file.txt") (str "2\\file.txt")
      (by decide) (by decide) (by decide),
    ⟨by decide, C5_boundary_and_edges.2.2.1 [pAlias] (str "D:\\other") (by decide)⟩,
    C5_boundary_and_edges.2.2.2.1 [pAlias] (str "C:\\dev\\workspace") pAlias
      (by decide) (by decide) (by decide) (by decide)⟩

/-- Claim C7: when no alias target is a boundary-aligned prefix of the
letter-rooted result, applying the substitution a second time returns it
unchanged. -/
theorem C7_idempotent :
    ∀ (aliases : List PathConv.Alias) (p : Str),
      (∀ a ∈ aliases, ¬ PathConv.aliasMatches a (PathConv.applyAlias aliases p)) →
        PathConv.applyAlias aliases (PathConv.applyAlias aliases p) =
          PathConv.applyAlias aliases p :=
  fun aliases p h => PathConv.applyAlias_of_no_match aliases (PathConv.applyAlias aliases p) h

/-- Witness for C7 at the spec's scenario: no alias matches
`P:\project\file.txt`, so a second substitution is the identity. -/
theorem C7_idempotent_witness :
    (∀ a ∈ [pAlias],
        ¬ PathConv.aliasMatches a
          (PathConv.applyAlias [pAlias] (str "C:\\dev\\workspace\\project\\file.txt"))) ∧
      PathConv.applyAlias [pAlias]
          (PathConv.applyAlias [pAlias] (str "C:\\dev\\workspace\\project\\file.txt")) =
        PathConv.applyAlias [pAlias] (str "C:\\dev\\workspace\\project\\file.txt") :=
  ⟨by decide,
    C7_idempotent [pAlias] (str "C:\\dev\\workspace\\project\\file.txt") (by decide)⟩

lemma eqFoldB_iff (a b : Str) : eqFoldB a b = true ↔ lowerStr a = lowerStr b := by
  simp [eqFoldB]

lemma eqFoldB_refl (a : Str) : eqFoldB a a = true := by simp [eqFoldB]

lemma eqFoldB_trans {a b c : Str} (h1 : eqFoldB a b = true) (h2 : eqFoldB b c = true) :
    eqFoldB a c = true := by
  rw [eqFoldB_iff] at *
  exact h1.trans h2

lemma eqFoldB_symm {a b : Str} (h : eqFoldB a b = true) : eqFoldB b a = true := by
  rw [eqFoldB_iff] at *
  exact h.symm

namespace PathConv

lemma upsertAlias_exists (as : List Alias) (l t : Str) :
    ∃ x ∈ upsertAlias as l t, eqFoldB x.letter l = true ∧ x.target = t := by
  induction as with
  | nil => exact ⟨{ letter := l, target := t }, by simp [upsertAlias], eqFoldB_refl l, rfl⟩
  | cons a rest ih =>
    rw [upsertAlias]
    by_cases hm : eqFoldB a.letter l = true
    · exact ⟨{ letter := a.letter, target := t }, by simp [hm], hm, rfl⟩
    · obtain ⟨x, hx, hl, ht⟩ := ih
      exact ⟨x, by simp [hm, List.mem_cons, hx], hl, ht⟩

lemma upsertAlias_preserves (as : List Alias) (l t : Str) (x : Alias) (hx : x ∈ as)
    (hne : eqFoldB x.letter l = false) : x ∈ upsertAlias as l t := by
  induction as with
  | nil => exact absurd hx (List.not_mem_nil x)
  | cons a rest ih =>
    rw [upsertAlias]
    rcases List.mem_cons.mp hx with rfl | hx'
    · rw [if_neg (by simp [hne])]
      exact List.mem_cons_self x _
    · by_cases hm : eqFoldB a.letter l = true
      · rw [if_pos hm]
        exact List.mem_cons_of_mem _ hx'
      · rw [if_neg hm]
        exact List.mem_cons_of_mem a (ih hx')

lemma upsertAlias_mem (as : List Alias) (l t : Str) (x : Alias)
    (hx : x ∈ upsertAlias as l t) :
    x ∈ as ∨ (eqFoldB x.letter l = true ∧ x.target = t) := by
  induction as with
  | nil =>
    rw [upsertAlias] at hx
    obtain rfl : x = { letter := l, target := t } := by simpa using hx
    exact Or.inr ⟨eqFoldB_refl l, rfl⟩
  | cons a rest ih =>
    rw [upsertAlias] at hx
    by_cases hm : eqFoldB a.letter l = true
    · rw [if_pos hm] at hx
      rcases List.mem_cons.mp hx with rfl | hx'
      · exact Or.inr ⟨hm, rfl⟩
      · exact Or.inl (List.mem_cons_of_mem a hx')
    · rw [if_neg hm] at hx
      rcases List.mem_cons.mp hx with rfl | hx'
      · exact Or.inl (List.mem_cons_self x rest)
      · rcases ih hx' with h | h
        · exact Or.inl (List.mem_cons_of_mem a h)
        · exact Or.inr h

lemma upsertAlias_pairwise (as : List Alias) (l t : Str)
    (h : as.Pairwise (fun x y => eqFoldB x.letter y.letter = false)) :
    (upsertAlias as l t).Pairwise (fun x y => eqFoldB x.letter y.letter = false) := by
  induction as with
  | nil => simp [upsertAlias]
  | cons a rest ih =>
    rw [List.pairwise_cons] at h
    obtain ⟨ha, hrest⟩ := h
    rw [upsertAlias]
    by_cases hm : eqFoldB a.letter l = true
    · rw [if_pos hm, List.pairwise_cons]
      exact ⟨fun y hy => ha y hy, hrest⟩
    · rw [if_neg hm, List.pairwise_cons]
      refine ⟨fun y hy => ?_, ih hrest⟩
      rcases upsertAlias_mem rest l t y hy with hmem | ⟨hyl, _⟩
      · exact ha y hmem
      · rcases hxy : eqFoldB a.letter y.letter with _ | _
        · rfl
        · exact absurd (eqFoldB_trans hxy hyl) (by simpa using hm)


lemma configFold_preserves (cfg : List (Str × Str)) (acc : List Alias) (x : Alias)
    (hx : x ∈ acc) (hfree : ∀ q ∈ cfg, eqFoldB x.letter (upperStr q.1) = false) :
    x ∈ configFold cfg acc := by
  induction cfg generalizing acc with
  | nil => exact hx
  | cons p rest ih =>
    rw [configFold, List.foldl_cons]
    exact ih _ (upsertAlias_preserves acc (upperStr p.1) p.2 x hx
        (hfree p (List.mem_cons_self p rest)))
      (fun q hq => hfree q (List.mem_cons_of_mem p hq))

lemma configFold_config (cfg : List (Str × Str)) (acc : List Alias)
    (hdis : cfg.Pairwise (fun p q => eqFoldB (upperStr p.1) (upperStr q.1) = false)) :
    ∀ lt ∈ cfg, ∃ x ∈ configFold cfg acc,
      eqFoldB x.letter (upperStr lt.1) = true ∧ x.target = lt.2 := by
  induction cfg generalizing acc with
  | nil => intro lt h; exact absurd h (List.not_mem_nil lt)
  | cons p rest ih =>
    rw [List.pairwise_cons] at hdis
    obtain ⟨hp, hrest⟩ := hdis
    intro lt hlt
    rcases List.mem_cons.mp hlt with rfl | hlt'
    · obtain ⟨x, hx, hxl, hxt⟩ := upsertAlias_exists acc (upperStr lt.1) lt.2
      refine ⟨x, ?_, hxl, hxt⟩
      rw [configFold, List.foldl_cons]
      refine configFold_preserves rest _ x hx fun q hq => ?_
      rcases hxq : eqFoldB x.letter (upperStr q.1) with _ | _
      · rfl
      · exact absurd (eqFoldB_trans (eqFoldB_symm hxl) hxq) (by simpa using hp q hq)
    · rw [configFold, List.foldl_cons]
      exact ih _ hrest lt hlt'

lemma configFold_mem (cfg : List (Str × Str)) (acc : List Alias) (x : Alias)
    (hx : x ∈ configFold cfg acc) :
    x ∈ acc ∨ ∃ q ∈ cfg, eqFoldB x.letter (upperStr q.1) = true ∧ x.target = q.2 := by
  induction cfg generalizing acc with
  | nil => exact Or.inl hx
  | cons p rest ih =>
    rw [configFold, List.foldl_cons] at hx
    rcases ih _ hx with hmem | ⟨q, hq, hql, hqt⟩
    · rcases upsertAlias_mem acc (upperStr p.1) p.2 x hmem with h | ⟨hl, ht⟩
      · exact Or.inl h
      · exact Or.inr ⟨p, List.mem_cons_self p rest, hl, ht⟩
    · exact Or.inr ⟨q, List.mem_cons_of_mem p hq, hql, hqt⟩

lemma configFold_pairwise (cfg : List (Str × Str)) (acc : List Alias)
    (h : acc.Pairwise (fun x y => eqFoldB x.letter y.letter = false)) :
    (configFold cfg acc).Pairwise (fun x y => eqFoldB x.letter y.letter = false) := by
  induction cfg generalizing acc with
  | nil => exact h
  | cons p rest ih =>
    rw [configFold, List.foldl_cons]
    exact ih _ (upsertAlias_pairwise acc (upperStr p.1) p.2 h)

lemma autoAliases_mem (ds : List Protocol.DriveInfo) (x : Alias)
    (hx : x ∈ autoAliases ds) :
    ∃ d ∈ ds, d.dtype = Protocol.DriveType.subst ∧ d.target ≠ [] ∧
      x = { letter := d.letter, target := d.target } := by
  induction ds with
  | nil => exact absurd hx (by simp [autoAliases] at hx ⊢)
  | cons d rest ih =>
    rw [autoAliases] at hx
    by_cases hc : d.dtype = Protocol.DriveType.subst ∧ d.target ≠ []
    · rw [if_pos hc] at hx
      rcases List.mem_cons.mp hx with rfl | hx'
      · exact ⟨d, List.mem_cons_self d rest, hc.1, hc.2, rfl⟩
      · obtain ⟨e, he, h1, h2, h3⟩ := ih hx'
        exact ⟨e, List.mem_cons_of_mem d he, h1, h2, h3⟩
    · rw [if_neg hc] at hx
      obtain ⟨e, he, h1, h2, h3⟩ := ih hx
      exact ⟨e, List.mem_cons_of_mem d he, h1, h2, h3⟩

lemma autoAliases_pairwise (ds : List Protocol.DriveInfo)
    (h : ds.Pairwise (fun d e => eqFoldB d.letter e.letter = false)) :
    (autoAliases ds).Pairwise (fun x y => eqFoldB x.letter y.letter = false) := by
  induction ds with
  | nil => simp [autoAliases]
  | cons d rest ih =>
    rw [List.pairwise_cons] at h
    obtain ⟨hd, hrest⟩ := h
    rw [autoAliases]
    by_cases hc : d.dtype = Protocol.DriveType.subst ∧ d.target ≠ []
    · rw [if_pos hc, List.pairwise_cons]
      refine ⟨fun y hy => ?_, ih hrest⟩
      obtain ⟨e, he, _, _, rfl⟩ := autoAliases_mem rest y hy
      exact hd e he
    · rw [if_neg hc]
      exact ih hrest

end PathConv

namespace PathConv

lemma newConverter_aliases (drives : List Protocol.DriveInfo) (cfg : List (Str × Str))
    (prefer : Bool) :
    (newConverter drives cfg prefer).aliases = configFold cfg (autoAliases drives) := rfl

end PathConv

/-- Claim C9: for drives with (case-insensitively) distinct letters and a
configured-alias map with (case-insensitively) distinct keys, the merged
alias list has at most one alias per letter; a configured entry always ends
up as the target of the alias carrying its letter (configured entries win
over auto-detected targets); and every alias stems from a configured entry
or from a subst drive with a non-empty target. -/
theorem C9_converter_invariant :
    (∀ (drives : List Protocol.DriveInfo) (cfg : List (Str × Str)) (prefer : Bool),
      drives.Pairwise (fun d e => eqFoldB d.letter e.letter = false) →
        (PathConv.newConverter drives cfg prefer).aliases.Pairwise
          (fun x y => eqFoldB x.letter y.letter = false)) ∧
    (∀ (drives : List Protocol.DriveInfo) (cfg : List (Str × Str)) (prefer : Bool),
      cfg.Pairwise (fun p q => eqFoldB (upperStr p.1) (upperStr q.1) = false) →
        ∀ lt ∈ cfg, ∃ x ∈ (PathConv.newConverter drives cfg prefer).aliases,
          eqFoldB x.letter (upperStr lt.1) = true ∧ x.target = lt.2) ∧
    (∀ (drives : List Protocol.DriveInfo) (cfg : List (Str × Str)) (prefer : Bool),
      ∀ x ∈ (PathConv.newConverter drives cfg prefer).aliases,
        (∃ q ∈ cfg, eqFoldB x.letter (upperStr q.1) = true ∧ x.target = q.2) ∨
          ∃ d ∈ drives, d.dtype = Protocol.DriveType.subst ∧ d.target ≠ [] ∧
            x.letter = d.letter ∧ x.target = d.target) := by
  refine ⟨fun drives cfg prefer h => ?_, fun drives cfg prefer h lt hlt => ?_,
    fun drives cfg prefer x hx => ?_⟩
  · rw [PathConv.newConverter_aliases]
    exact PathConv.configFold_pairwise cfg _ (PathConv.autoAliases_pairwise drives h)
  · rw [PathConv.newConverter_aliases]
    exact PathConv.configFold_config cfg _ h lt hlt
  · rw [PathConv.newConverter_aliases] at hx
    rcases PathConv.configFold_mem cfg _ x hx with hauto | hcfg
    · obtain ⟨d, hd, h1, h2, rfl⟩ := PathConv.autoAliases_mem drives x hauto
      exact Or.inr ⟨d, hd, h1, h2, rfl, rfl⟩
    · exact Or.inl hcfg


/-- Witness for C9 at one subst drive and one configured override of the same
letter (lowercase `s`): the configured target wins and letters stay unique. -/
theorem C9_converter_invariant_witness :
    ([substDriveW].Pairwise (fun d e => eqFoldB d.letter e.letter = false) ∧
        [(str "s", str "D:\\cfg")].Pairwise
          (fun p q => eqFoldB (upperStr p.1) (upperStr q.1) = false)) ∧
      (PathConv.newConverter [substDriveW] [(str "s", str "D:\\cfg")] true).aliases.Pairwise
        (fun x y => eqFoldB x.letter y.letter = false) ∧
      ∃ x ∈ (PathConv.newConverter [substDriveW] [(str "s", str "D:\\cfg")] true).aliases,
        eqFoldB x.letter (upperStr (str "s")) = true ∧ x.target = str "D:\\cfg" :=
  ⟨⟨by decide, by decide⟩,
    C9_converter_invariant.1 [substDriveW] [(str "s", str "D:\\cfg")] true (by decide),
    C9_converter_invariant.2.1 [substDriveW] [(str "s", str "D:\\cfg")] true (by decide)
      (str "s", str "D:\\cfg") (by decide)⟩
